import Mathlib

set_option maxRecDepth 4000

/-!
Verification development for the hwaoc-dump extractor
(`src/extract_linkdata.py`).

The Python source is shallowly embedded below.  Byte strings are
`List Nat` (each element a byte value `0..255`; the little-endian
readers take each byte modulo 256 so every definition is total).
Machine integers are `Nat` with explicit `% 2^w` where the source
truncates.  Python's `struct.error` (raised when a slice is shorter
than the struct size) and `zlib.error` are modelled explicitly; the
former is NOT caught by `decompress_block`'s `except zlib.error`
handler, so it is modelled as an uncaught-exception outcome that
aborts the whole run.

The external `zlib.decompress` routine is not part of this repository;
all definitions are parameterised by an arbitrary decompressor
`zdec : List Nat → Option (List Nat)` where `none` models a raised
`zlib.error`.

`math.ceil(math.log10 n)` (CPython doubles) is modelled as the exact
ceiling logarithm `Nat.clog 10 n`; for the concrete inputs appearing in
the theorems below (small `n`, in particular exact powers of ten, where
IEEE-754 `log10` is exact) the two agree.
-/

/-- Constant `FIELD_ALIGNMENT = 128` from the source. -/
def FIELD_ALIGNMENT : Nat := 128

/-- Constant `COMPRESSION_ZLIB = 1` from the source. -/
def COMPRESSION_ZLIB : Nat := 1

/-- `INDEX_ENTRY.size` for `struct.Struct('<QQQQ4s4s')`: 40 bytes. -/
def INDEX_ENTRY_size : Nat := 40

/-- `DATA_ENTRY_HEADER.size` for 32 little-endian `u32` fields: 128 bytes. -/
def DATA_ENTRY_HEADER_size : Nat := 128

/-- Little-endian value of a byte list (each byte reduced mod 256). -/
def leVal : List Nat → Nat
  | [] => 0
  | b :: rest => b % 256 + 256 * leVal rest

/-- The `w` little-endian bytes of `n` (encoder, used to build test blocks). -/
def leBytes : Nat → Nat → List Nat
  | 0, _ => []
  | w + 1, n => n % 256 :: leBytes w (n / 256)

/-- Split a byte list into consecutive little-endian `u32` values
(`struct.unpack` of a run of `<I` fields; assumes the length is a
multiple of 4, which the caller checks). -/
def unpackU32List : List Nat → List Nat
  | b0 :: b1 :: b2 :: b3 :: rest => leVal [b0, b1, b2, b3] :: unpackU32List rest
  | _ => []

/-- `struct.unpack('<I', bs)`: fails (struct.error) unless `bs` is
exactly 4 bytes. -/
def unpackU32 (bs : List Nat) : Option Nat :=
  if bs.length = 4 then some (leVal bs) else none

/-- `DATA_ENTRY_HEADER.unpack(bs)`: fails (struct.error) unless `bs` is
exactly 128 bytes. -/
def unpackHeader (bs : List Nat) : Option (List Nat) :=
  if bs.length = DATA_ENTRY_HEADER_size then some (unpackU32List bs) else none

/-- One parsed 40-byte index record, `INDEX_ENTRY = struct.Struct('<QQQQ4s4s')`:
four little-endian `u64` values followed by two opaque 4-byte tags.
Note the compression-method field is a full 8-byte `Q`, not a 4-byte slot. -/
structure IndexEntry where
  offset : Nat
  uncompressedSize : Nat
  compressedSize : Nat
  compression : Nat
  tag0 : List Nat
  tag1 : List Nat
deriving DecidableEq, Repr, Inhabited

/-- Field-by-field parse of a 40-byte record (total; callers check the
length via `unpackIndexEntry`). -/
def parseEntry40 (bs : List Nat) : IndexEntry :=
  { offset := leVal (bs.take 8)
    uncompressedSize := leVal ((bs.drop 8).take 8)
    compressedSize := leVal ((bs.drop 16).take 8)
    compression := leVal ((bs.drop 24).take 8)
    tag0 := (bs.drop 32).take 4
    tag1 := (bs.drop 36).take 4 }

/-- `INDEX_ENTRY.unpack(bs)`: struct.error unless `bs` is exactly 40 bytes. -/
def unpackIndexEntry (bs : List Nat) : Option IndexEntry :=
  if bs.length = INDEX_ENTRY_size then some (parseEntry40 bs) else none

/-- The `while fp_idx.tell() < idx_file_size` loop of `read_index_entries`:
read up to 40 bytes, unpack; on struct.error print the truncation warning
and break.  Returns the entries parsed so far and whether the warning was
printed. -/
def readEntriesLoop (bs : List Nat) : List IndexEntry × Bool :=
  if hb : bs = [] then ([], false)
  else
    match unpackIndexEntry (bs.take INDEX_ENTRY_size) with
    | some e =>
      let r := readEntriesLoop (bs.drop INDEX_ENTRY_size)
      (e :: r.1, r.2)
    | none => ([], true)
termination_by bs.length
decreasing_by
  simp only [List.length_drop]
  exact Nat.sub_lt (List.length_pos.mpr hb) (by norm_num [INDEX_ENTRY_size])

/-- `read_index_entries(fp_idx)`: parses the whole index byte stream.
The Python function also returns `idx_file_size`, which is `idx.length`
here and is unused downstream. -/
def read_index_entries (idx : List Nat) : List IndexEntry × Bool :=
  readEntriesLoop idx

/-- The diagnostics the program prints, tagged with the values that
appear in the corresponding message. -/
inductive Diag where
  | invalidRange (blockId : Nat)
  | fieldOverflow (blockId : Nat)
  | sizeMismatch (blockId : Nat) (inner : Nat) (expected : Int)
  | zlibError (blockId : Nat)
deriving DecidableEq, Repr

/-- Outcome of `decompress_block`: a returned buffer (`ok`), a reported
failure, i.e. the function printed a diagnostic and returned `None`
(`failed`), or an uncaught exception — a `struct.error` escaping the
`except zlib.error` handler and aborting the whole run (`exn`).  Each
constructor carries the diagnostics printed before it resolved. -/
inductive DecodeResult where
  | ok (data : List Nat) (diags : List Diag)
  | failed (diags : List Diag)
  | exn (diags : List Diag)
deriving DecidableEq, Repr

/-- `((end_offset + FIELD_ALIGNMENT - 1) // FIELD_ALIGNMENT) * FIELD_ALIGNMENT`. -/
def alignUp (n : Nat) : Nat :=
  (n + FIELD_ALIGNMENT - 1) / FIELD_ALIGNMENT * FIELD_ALIGNMENT

/-- The `for field_size in field_sizes` loop of `decompress_block`:
slice the field payload, unpack its 4-byte inner size (struct.error if
the slice is shorter than 4 bytes — uncaught), warn on mismatch with
`field_size - 4` (Python int arithmetic, hence `Int`), decompress
`payload[4:]` (zlib.error is caught by the enclosing handler, turning
the call into a reported failure), then align the cursor. -/
def processFields (zdec : List Nat → Option (List Nat)) (block : List Nat)
    (blockId : Nat) : Nat → List Nat → List Nat → List Diag → DecodeResult
  | _, [], acc, diags => .ok acc diags
  | start, fs :: rest, acc, diags =>
    let payload := (block.drop start).take fs
    match unpackU32 (payload.take 4) with
    | none => .exn diags
    | some inner =>
      let diags' :=
        if (fs : Int) - 4 ≠ (inner : Int) then
          diags ++ [Diag.sizeMismatch blockId inner ((fs : Int) - 4)]
        else diags
      match zdec (payload.drop 4) with
      | none => .failed (diags' ++ [Diag.zlibError blockId])
      | some piece =>
        processFields zdec block blockId (alignUp (start + fs)) rest
          (acc ++ piece) diags'

/-- `decompress_block(block_data, block_id)`.  The sub-header unpack
sits inside the `try`, but the `except` clause only catches
`zlib.error`, so a short block raises an uncaught `struct.error`. -/
def decompress_block (zdec : List Nat → Option (List Nat))
    (block : List Nat) (blockId : Nat) : DecodeResult :=
  match unpackHeader (block.take DATA_ENTRY_HEADER_size) with
  | none => .exn []
  | some header =>
    let fieldSizes := (header.drop 3).filter (fun s => decide (0 < s))
    if header.getD 1 0 > fieldSizes.length then
      .failed [Diag.fieldOverflow blockId]
    else
      processFields zdec block blockId DATA_ENTRY_HEADER_size fieldSizes [] []

/-- `math.ceil(math.log10(len(entries))) if entries else 1`, with the
real logarithm in place of the IEEE double (see the file header). -/
def filename_digits (n : Nat) : Nat :=
  if n = 0 then 1 else Nat.clog 10 n

/-- Decimal digits, most significant first, with structural fuel
(`fuel ≥ n` always suffices, see `decDigitsAux_big`). -/
def decDigitsAux : Nat → Nat → List Nat
  | 0, n => [n % 10]
  | fuel + 1, n => if n < 10 then [n] else decDigitsAux fuel (n / 10) ++ [n % 10]

/-- Decimal digits of `n`, most significant first (`decDigits 0 = [0]`). -/
def decDigits (n : Nat) : List Nat :=
  decDigitsAux n n

/-- Left-pad a digit list with zeros to width `w` (no truncation),
the semantics of Python's `0{w}d` format. -/
def zeroPad (w : Nat) (ds : List Nat) : List Nat :=
  List.replicate (w - ds.length) 0 ++ ds

/-- The output filename `f'{block_id:0{w}d}.bin'` as a list of ASCII
codes: zero-padded decimal digits followed by `.bin`. -/
def output_filename (w i : Nat) : List Nat :=
  (zeroPad w (decDigits i)).map (fun d => 48 + d) ++ [46, 98, 105, 110]

/-- Strict lexicographic order on byte lists (how a directory listing
sorts the filenames). -/
def lexLt : List Nat → List Nat → Bool
  | [], [] => false
  | [], _ :: _ => true
  | _ :: _, [] => false
  | a :: as, b :: bs => decide (a < b) || (a == b && lexLt as bs)

/-- What one iteration of the extract loop did: the file it wrote (id,
filename, bytes), the diagnostics it printed, and whether it raised an
uncaught exception. -/
structure RecordOutcome where
  file : Option (Nat × List Nat × List Nat)
  diags : List Diag
  crashed : Bool
deriving DecidableEq, Repr

/-- Outcome of the stored (pass-through) path: the raw block bytes are
written unchanged. -/
def storedOutcome (w blockId : Nat) (block : List Nat) : RecordOutcome :=
  ⟨some (blockId, output_filename w blockId, block), [], false⟩

/-- Outcome of the deflate path given what `decompress_block` returned:
on success the decoded bytes are written; when it returned `None`
(reported failure) the raw block bytes are written, because the source
only replaces `block_data` when the result `is not None`; an uncaught
exception writes nothing and aborts. -/
def decodeOutcome (w blockId : Nat) (block : List Nat) :
    DecodeResult → RecordOutcome
  | .ok d ds => ⟨some (blockId, output_filename w blockId, d), ds, false⟩
  | .failed ds => ⟨some (blockId, output_filename w blockId, block), ds, false⟩
  | .exn ds => ⟨none, ds, true⟩

/-- One iteration of the `for block_id, (...) in enumerate(entries, 1)`
loop of `extract_blocks`. -/
def processRecord (zdec : List Nat → Option (List Nat)) (data : List Nat)
    (w blockId : Nat) (e : IndexEntry) : RecordOutcome :=
  if e.offset + e.compressedSize > data.length then
    ⟨none, [Diag.invalidRange blockId], false⟩
  else
    let block := (data.drop e.offset).take e.compressedSize
    if e.compression = COMPRESSION_ZLIB then
      decodeOutcome w blockId block (decompress_block zdec block blockId)
    else
      storedOutcome w blockId block

/-- The extract loop over the remaining entries, starting at block id
`i`: accumulates written files and diagnostics; an uncaught exception
stops the run with the third component `true`. -/
def extractLoop (zdec : List Nat → Option (List Nat)) (data : List Nat)
    (w : Nat) : Nat → List IndexEntry →
    List (Nat × List Nat × List Nat) × List Diag × Bool
  | _, [] => ([], [], false)
  | i, e :: rest =>
    let r := processRecord zdec data w i e
    if r.crashed then ([], r.diags, true)
    else
      let t := extractLoop zdec data w (i + 1) rest
      (r.file.toList ++ t.1, r.diags ++ t.2.1, t.2.2)

/-- Result of a whole `extract_blocks` run. -/
structure ExtractResult where
  files : List (Nat × List Nat × List Nat)
  diags : List Diag
  crashed : Bool
  truncated : Bool
deriving DecidableEq, Repr

/-- `extract_blocks(idx_file, data_file, output_base_path)`, with the
two input files given as byte lists and the output directory as the
list of files written. -/
def extract_blocks (zdec : List Nat → Option (List Nat))
    (idx data : List Nat) : ExtractResult :=
  let p := read_index_entries idx
  let w := filename_digits p.1.length
  let r := extractLoop zdec data w 1 p.1
  ⟨r.1, r.2.1, r.2.2, p.2⟩

/-- Test-harness constructor (the hypothesis of the round-trip claims):
one stored field, given its 4 leading inner-size bytes `wb` and its
compressed payload `c`; the field is `wb ++ c` padded with zeros to the
next 128-byte boundary. -/
def buildField (wb c : List Nat) : List Nat :=
  wb ++ c ++ List.replicate (alignUp (4 + c.length) - (4 + c.length)) 0

/-- Test-harness constructor: the concatenated, aligned field area of a
block built from `(inner bytes, compressed payload)` pairs. -/
def buildFields (flds : List (List Nat × List Nat)) : List Nat :=
  (flds.map (fun f => buildField f.1 f.2)).flatten

/-- Test-harness constructor: a 128-byte sub-header with slots
`[a0, d, a2]`, then the field sizes, then zero (unused) slots. -/
def buildHeader (a0 d a2 : Nat) (sizes : List Nat) : List Nat :=
  ((([a0, d, a2] ++ sizes) ++ List.replicate (29 - sizes.length) 0).map
    (leBytes 4)).flatten

/-- The size-mismatch diagnostics `decompress_block` prints on a block
whose fields were built by `buildFields`: one per field whose leading
4 bytes do not spell its compressed length. -/
def mismatchDiags (blockId : Nat) (flds : List (List Nat × List Nat)) :
    List Diag :=
  flds.filterMap (fun f =>
    if ((4 + f.2.length : Nat) : Int) - 4 ≠ (leVal f.1 : Int) then
      some (Diag.sizeMismatch blockId (leVal f.1)
        (((4 + f.2.length : Nat) : Int) - 4))
    else none)

/-- The slice `(data.drop off).take cs` has length `cs` whenever
`off + cs ≤ data.length` (an in-range read returns exactly `cs` bytes). -/
lemma slice_length (data : List Nat) (off cs : Nat)
    (h : off + cs ≤ data.length) :
    ((data.drop off).take cs).length = cs := by
  simp only [List.length_take, List.length_drop]
  omega

/-- A block shorter than the sub-header makes the header unpack raise
struct.error, which the except clause does not catch. -/
lemma decompress_block_short (zdec : List Nat → Option (List Nat))
    (block : List Nat) (blockId : Nat)
    (h : block.length < DATA_ENTRY_HEADER_size) :
    decompress_block zdec block blockId = .exn [] := by
  have hnone : unpackHeader (block.take DATA_ENTRY_HEADER_size) = none := by
    rw [unpackHeader, if_neg]
    simp only [List.length_take]
    omega
  simp only [decompress_block, hnone]

/-- C2: a block shorter than the 128-byte sub-header makes
`decompress_block` raise an uncaught struct.error (modelled `.exn`),
not a reported `MalformedHeader`-style failure, and any index record
that routes such a block to the decoder aborts the whole extract loop:
no file is written for that record and no later record is processed. -/
theorem C2_short_block_uncaught (zdec : List Nat → Option (List Nat))
    (block : List Nat) (blockId : Nat)
    (h : block.length < DATA_ENTRY_HEADER_size) :
    decompress_block zdec block blockId = .exn [] ∧
    ∀ (data : List Nat) (w i : Nat) (e : IndexEntry)
      (rest : List IndexEntry),
      e.compression = COMPRESSION_ZLIB →
      e.offset + e.compressedSize ≤ data.length →
      (data.drop e.offset).take e.compressedSize = block →
      extractLoop zdec data w i (e :: rest) = ([], [], true) := by
  refine ⟨decompress_block_short zdec block blockId h, ?_⟩
  intro data w i e rest hc hrange hblock
  have hnr : ¬ e.offset + e.compressedSize > data.length := by omega
  have hmain' : decompress_block zdec block i = .exn [] :=
    decompress_block_short zdec block i h
  have hstep : processRecord zdec data w i e = ⟨none, [], true⟩ := by
    unfold processRecord
    rw [if_neg hnr, hc]
    simp only [hblock, if_pos rfl, hmain', decodeOutcome]
    simp
  simp [extractLoop, hstep]

/-- Closed instance of the C2 theorem: the empty block raises the
uncaught exception, and a one-record run over it aborts. -/
theorem C2_short_block_uncaught_witness :
    ([] : List Nat).length < DATA_ENTRY_HEADER_size ∧
    decompress_block (fun c => some c) [] 1 = .exn [] ∧
    extractLoop (fun c => some c) [] 1 1
      [⟨0, 0, 0, 1, [0,0,0,0], [0,0,0,0]⟩] = ([], [], true) := by
  have h := C2_short_block_uncaught (fun c => some c) [] 1 (by decide)
  exact ⟨by decide, h.1,
    h.2 [] 1 1 ⟨0, 0, 0, 1, [0,0,0,0], [0,0,0,0]⟩ [] rfl (by decide) rfl⟩

/-- C7: a block whose sub-header parses but whose declared field count
(slot 1) exceeds the number of non-zero candidate sizes is rejected
whole: `decompress_block` reports the overflow diagnostic and returns
no data at all. -/
theorem C7_field_count_overflow (zdec : List Nat → Option (List Nat))
    (block : List Nat) (blockId : Nat)
    (h : DATA_ENTRY_HEADER_size ≤ block.length)
    (hover : ((unpackU32List (block.take DATA_ENTRY_HEADER_size)).drop 3
        |>.filter (fun s => decide (0 < s))).length <
      (unpackU32List (block.take DATA_ENTRY_HEADER_size)).getD 1 0) :
    decompress_block zdec block blockId =
      .failed [Diag.fieldOverflow blockId] := by
  have hlen : (block.take DATA_ENTRY_HEADER_size).length =
      DATA_ENTRY_HEADER_size := by
    simp only [List.length_take]
    omega
  have hhdr : unpackHeader (block.take DATA_ENTRY_HEADER_size) =
      some (unpackU32List (block.take DATA_ENTRY_HEADER_size)) := by
    simp [unpackHeader, hlen]
  simp only [decompress_block, hhdr]
  rw [if_pos hover]

/-- Closed instance of the C7 theorem: a 128-byte header declaring one
field while every candidate size slot is zero is rejected whole. -/
theorem C7_field_count_overflow_witness :
    DATA_ENTRY_HEADER_size ≤ (buildHeader 0 1 0 []).length ∧
    decompress_block (fun c => some c) (buildHeader 0 1 0 []) 1 =
      .failed [Diag.fieldOverflow 1] :=
  ⟨by decide,
   C7_field_count_overflow (fun c => some c) (buildHeader 0 1 0 []) 1
     (by decide) (by decide)⟩

/-- A 40-byte slice unpacks successfully to its field-by-field parse. -/
lemma unpackIndexEntry_of_len (bs : List Nat)
    (h : bs.length = INDEX_ENTRY_size) :
    unpackIndexEntry bs = some (parseEntry40 bs) := by
  simp [unpackIndexEntry, h]

/-- The index loop on complete records followed by a short tail returns
the records in order and warns exactly when the tail is non-empty. -/
lemma readEntriesLoop_spec (recs : List (List Nat)) (extra : List Nat)
    (hr : ∀ r ∈ recs, r.length = INDEX_ENTRY_size)
    (he : extra.length < INDEX_ENTRY_size) :
    readEntriesLoop (recs.flatten ++ extra) =
      (recs.map parseEntry40, !extra.isEmpty) := by
  induction recs with
  | nil =>
    simp only [List.flatten_nil, List.nil_append, List.map_nil]
    by_cases hx : extra = []
    · subst hx
      rw [readEntriesLoop]
      simp
    · rw [readEntriesLoop]
      have hlt : (extra.take INDEX_ENTRY_size).length ≠ INDEX_ENTRY_size := by
        simp only [List.length_take]
        omega
      have hnone : unpackIndexEntry (extra.take INDEX_ENTRY_size) = none := by
        rw [unpackIndexEntry, if_neg hlt]
      simp [hx, hnone]
  | cons r rs ih =>
    have hrl : r.length = INDEX_ENTRY_size := hr r (by simp)
    have hne : (r :: rs).flatten ++ extra ≠ [] := by
      simp only [List.flatten_cons, List.append_assoc]
      intro hcontra
      have h0 := congrArg List.length hcontra
      simp only [List.length_append, List.length_nil, hrl,
        INDEX_ENTRY_size] at h0
      omega
    have htake : ((r :: rs).flatten ++ extra).take INDEX_ENTRY_size = r := by
      rw [List.flatten_cons, List.append_assoc, ← hrl, List.take_left]
    have hdrop : ((r :: rs).flatten ++ extra).drop INDEX_ENTRY_size =
        rs.flatten ++ extra := by
      rw [List.flatten_cons, List.append_assoc, ← hrl, List.drop_left]
    rw [readEntriesLoop, dif_neg hne, htake, hdrop,
      unpackIndexEntry_of_len r hrl]
    rw [ih (fun x hx => hr x (by simp [hx]))]
    simp

/-- C6: for an index byte stream of complete 40-byte records followed
by a short tail of k bytes (0 ≤ k < 40), `read_index_entries` returns
exactly the complete records in file order, and reports the non-fatal
truncation warning if and only if k > 0; a truncated final record never
fails the whole read. -/
theorem C6_read_index_truncation (recs : List (List Nat)) (extra : List Nat)
    (hr : ∀ r ∈ recs, r.length = INDEX_ENTRY_size)
    (he : extra.length < INDEX_ENTRY_size) :
    read_index_entries (recs.flatten ++ extra) =
      (recs.map parseEntry40, !extra.isEmpty) :=
  readEntriesLoop_spec recs extra hr he

/-- Closed instance of the C6 theorem: two complete records plus a
3-byte tail parse to exactly two entries with the warning; the same
records with no tail parse with no warning. -/
theorem C6_read_index_truncation_witness :
    read_index_entries
        (([List.replicate 40 0, List.replicate 40 2].flatten ++ [7, 7, 7])) =
      ([parseEntry40 (List.replicate 40 0),
        parseEntry40 (List.replicate 40 2)], true) ∧
    read_index_entries ([List.replicate 40 0, List.replicate 40 2].flatten
        ++ []) =
      ([parseEntry40 (List.replicate 40 0),
        parseEntry40 (List.replicate 40 2)], false) := by
  constructor
  · exact C6_read_index_truncation [List.replicate 40 0, List.replicate 40 2]
      [7, 7, 7] (by decide) (by decide)
  · exact C6_read_index_truncation [List.replicate 40 0, List.replicate 40 2]
      [] (by decide) (by decide)

/-- An out-of-range record is skipped with exactly the InvalidRange
diagnostic: no read, no file, no crash. -/
lemma processRecord_invalid (zdec : List Nat → Option (List Nat))
    (data : List Nat) (w i : Nat) (e : IndexEntry)
    (h : e.offset + e.compressedSize > data.length) :
    processRecord zdec data w i e = ⟨none, [Diag.invalidRange i], false⟩ := by
  rw [processRecord, if_pos h]

/-- Whenever a record's processing writes a file, that file's id is the
record's block id and its name is the zero-padded filename for it. -/
lemma processRecord_file_shape (zdec : List Nat → Option (List Nat))
    (data : List Nat) (w i : Nat) (e : IndexEntry) :
    (processRecord zdec data w i e).file = none ∨
    ∃ bytes, (processRecord zdec data w i e).file =
      some (i, output_filename w i, bytes) := by
  rw [processRecord]
  split
  · exact Or.inl rfl
  · split
    · cases hd : decompress_block zdec
        ((data.drop e.offset).take e.compressedSize) i with
      | ok d ds => exact Or.inr ⟨d, by simp [decodeOutcome, hd]⟩
      | failed ds =>
        exact Or.inr ⟨(data.drop e.offset).take e.compressedSize,
          by simp [decodeOutcome, hd]⟩
      | exn ds => exact Or.inl (by simp [decodeOutcome, hd])
    · exact Or.inr ⟨(data.drop e.offset).take e.compressedSize,
        by simp [storedOutcome]⟩

/-- An in-range record that does not crash the run always writes a
file, with its own block id and filename. -/
lemma processRecord_valid_file (zdec : List Nat → Option (List Nat))
    (data : List Nat) (w i : Nat) (e : IndexEntry)
    (h : ¬ e.offset + e.compressedSize > data.length)
    (hnc : (processRecord zdec data w i e).crashed = false) :
    ∃ bytes, (processRecord zdec data w i e).file =
      some (i, output_filename w i, bytes) := by
  rcases processRecord_file_shape zdec data w i e with hnone | hsome
  · exfalso
    rw [processRecord, if_neg h] at hnone hnc
    revert hnone hnc
    split
    · cases hd : decompress_block zdec
        ((data.drop e.offset).take e.compressedSize) i with
      | ok d ds => simp [decodeOutcome, hd]
      | failed ds => simp [decodeOutcome, hd]
      | exn ds => simp [decodeOutcome, hd]
    · simp [storedOutcome]
  · exact hsome

/-- Every file the loop emits carries its record's filename, and its
block id lies in the id range of the remaining records. -/
lemma extractLoop_files_mem (zdec : List Nat → Option (List Nat))
    (data : List Nat) (w : Nat) :
    ∀ (entries : List IndexEntry) (i : Nat)
      (f : Nat × List Nat × List Nat),
      f ∈ (extractLoop zdec data w i entries).1 →
      f.2.1 = output_filename w f.1 ∧ i ≤ f.1 ∧ f.1 < i + entries.length := by
  intro entries
  induction entries with
  | nil => intro i f hf; simp [extractLoop] at hf
  | cons e rest ih =>
    intro i f hf
    rw [extractLoop] at hf
    by_cases hc : (processRecord zdec data w i e).crashed
    · simp [hc] at hf
    · simp only [hc, if_neg, Bool.false_eq_true, not_false_eq_true,
        if_false] at hf
      rcases List.mem_append.mp hf with hhead | htail
      · rcases processRecord_file_shape zdec data w i e with hnone | ⟨b, hb⟩
        · simp [hnone] at hhead
        · rw [hb] at hhead
          simp only [Option.toList_some, List.mem_singleton] at hhead
          subst hhead
          refine ⟨rfl, le_refl i, ?_⟩
          simp
      · have := ih (i + 1) f htail
        exact ⟨this.1, by omega, by
          have := this.2.2
          simp only [List.length_cons]
          omega⟩

/-- One non-crashing loop step. -/
lemma extractLoop_cons (zdec : List Nat → Option (List Nat))
    (data : List Nat) (w i : Nat) (e : IndexEntry) (rest : List IndexEntry)
    (hnc : (processRecord zdec data w i e).crashed = false) :
    extractLoop zdec data w i (e :: rest) =
      ((processRecord zdec data w i e).file.toList ++
        (extractLoop zdec data w (i + 1) rest).1,
       (processRecord zdec data w i e).diags ++
        (extractLoop zdec data w (i + 1) rest).2.1,
       (extractLoop zdec data w (i + 1) rest).2.2) := by
  rw [extractLoop]
  simp [hnc]

/-- If the whole loop finished without an uncaught exception, then the
record at 0-based position `k` was either skipped with an InvalidRange
diagnostic and no file carrying its id (when out of range), or a file
with its id and filename was written (when in range). -/
lemma extractLoop_position (zdec : List Nat → Option (List Nat))
    (data : List Nat) (w : Nat) :
    ∀ (entries : List IndexEntry) (i k : Nat), k < entries.length →
      (extractLoop zdec data w i entries).2.2 = false →
      ((entries.getD k default).offset +
          (entries.getD k default).compressedSize > data.length →
        Diag.invalidRange (i + k) ∈ (extractLoop zdec data w i entries).2.1 ∧
        ∀ f ∈ (extractLoop zdec data w i entries).1, f.1 ≠ i + k) ∧
      ((entries.getD k default).offset +
          (entries.getD k default).compressedSize ≤ data.length →
        ∃ bytes, (i + k, output_filename w (i + k), bytes) ∈
          (extractLoop zdec data w i entries).1) := by
  intro entries
  induction entries with
  | nil => intro i k hk; simp at hk
  | cons e rest ih =>
    intro i k hk hok
    have hnc : (processRecord zdec data w i e).crashed = false := by
      by_contra hcr
      rw [extractLoop] at hok
      simp only [Bool.not_eq_false] at hcr
      simp [hcr] at hok
    rw [extractLoop_cons zdec data w i e rest hnc] at hok ⊢
    have hok' : (extractLoop zdec data w (i + 1) rest).2.2 = false := hok
    cases k with
    | zero =>
      simp only [List.getD_cons_zero, Nat.add_zero]
      constructor
      · intro hr
        rw [processRecord_invalid zdec data w i e hr]
        constructor
        · simp
        · intro f hf
          rcases List.mem_append.mp hf with hhead | htail
          · simp at hhead
          · have := extractLoop_files_mem zdec data w rest (i + 1) f htail
            omega
      · intro hr
        obtain ⟨bytes, hb⟩ := processRecord_valid_file zdec data w i e
          (by omega) hnc
        exact ⟨bytes, by rw [hb]; simp⟩
    | succ k' =>
      simp only [List.getD_cons_succ]
      have hk' : k' < rest.length := by
        simp only [List.length_cons] at hk
        omega
      have := ih (i + 1) k' hk' hok'
      have harith : i + 1 + k' = i + (k' + 1) := by omega
      rw [harith] at this
      constructor
      · intro hr
        refine ⟨List.mem_append.mpr (Or.inr ((this.1 hr).1)), ?_⟩
        intro f hf
        rcases List.mem_append.mp hf with hhead | htail
        · rcases processRecord_file_shape zdec data w i e with hnone | ⟨b, hb⟩
          · simp [hnone] at hhead
          · rw [hb] at hhead
            simp only [Option.toList_some, List.mem_singleton] at hhead
            subst hhead
            simp only
            omega
        · exact (this.1 hr).2 f htail
      · intro hr
        obtain ⟨bytes, hb⟩ := this.2 hr
        exact ⟨bytes, List.mem_append.mpr (Or.inr hb)⟩

/-- C9: in a run that completed, every index record whose range
`offset + compressed_size` exceeds the data file length produces the
InvalidRange diagnostic for its 1-based position and no output file
with that number, while every in-range record still gets an output file
numbered and named by its original 1-based position (skipped records
still consume their number). -/
theorem C9_invalid_range_skips_only_that_block
    (zdec : List Nat → Option (List Nat)) (idx data : List Nat) (k : Nat)
    (hk : k < (read_index_entries idx).1.length)
    (hok : (extract_blocks zdec idx data).crashed = false) :
    (((read_index_entries idx).1.getD k default).offset +
        ((read_index_entries idx).1.getD k default).compressedSize >
          data.length →
      Diag.invalidRange (1 + k) ∈ (extract_blocks zdec idx data).diags ∧
      ∀ f ∈ (extract_blocks zdec idx data).files, f.1 ≠ 1 + k) ∧
    (((read_index_entries idx).1.getD k default).offset +
        ((read_index_entries idx).1.getD k default).compressedSize ≤
          data.length →
      ∃ bytes,
        (1 + k,
          output_filename (filename_digits (read_index_entries idx).1.length)
            (1 + k), bytes) ∈ (extract_blocks zdec idx data).files) :=
  extractLoop_position zdec data
    (filename_digits (read_index_entries idx).1.length)
    (read_index_entries idx).1 1 k hk hok

/-- Closed instance of the C9 theorem: with a two-record index whose
first record overruns a 4-byte data file, the run reports InvalidRange
for block 1, writes no file numbered 1, and still writes block 2's
file. -/
theorem C9_invalid_range_skips_only_that_block_witness :
    Diag.invalidRange 1 ∈
      (extract_blocks (fun c => some c)
        (leBytes 8 5 ++ leBytes 8 0 ++ leBytes 8 5 ++ leBytes 8 0 ++
          List.replicate 8 0 ++ List.replicate 40 0) [1, 2, 3, 4]).diags ∧
    ∀ f ∈ (extract_blocks (fun c => some c)
        (leBytes 8 5 ++ leBytes 8 0 ++ leBytes 8 5 ++ leBytes 8 0 ++
          List.replicate 8 0 ++ List.replicate 40 0) [1, 2, 3, 4]).files,
      f.1 ≠ 1 := by
  have h := C9_invalid_range_skips_only_that_block (fun c => some c)
    (leBytes 8 5 ++ leBytes 8 0 ++ leBytes 8 5 ++ leBytes 8 0 ++
      List.replicate 8 0 ++ List.replicate 40 0) [1, 2, 3, 4] 0
  have hidx : read_index_entries
      (leBytes 8 5 ++ leBytes 8 0 ++ leBytes 8 5 ++ leBytes 8 0 ++
        List.replicate 8 0 ++ List.replicate 40 0) =
      ([parseEntry40 (leBytes 8 5 ++ leBytes 8 0 ++ leBytes 8 5 ++
          leBytes 8 0 ++ List.replicate 8 0),
        parseEntry40 (List.replicate 40 0)], false) := by
    have hsplit : leBytes 8 5 ++ leBytes 8 0 ++ leBytes 8 5 ++ leBytes 8 0 ++
        List.replicate 8 0 ++ List.replicate 40 0 =
        [leBytes 8 5 ++ leBytes 8 0 ++ leBytes 8 5 ++ leBytes 8 0 ++
          List.replicate 8 0, List.replicate 40 0].flatten ++ [] := by
      simp
    rw [hsplit]
    rw [read_index_entries, readEntriesLoop_spec _ _ (by decide) (by decide)]
    simp
  rw [hidx] at h
  have h0 := h (by simp) (by
    rw [extract_blocks, hidx]
    decide)
  have hout : (parseEntry40 (leBytes 8 5 ++ leBytes 8 0 ++ leBytes 8 5 ++
      leBytes 8 0 ++ List.replicate 8 0)).offset +
      (parseEntry40 (leBytes 8 5 ++ leBytes 8 0 ++ leBytes 8 5 ++
        leBytes 8 0 ++ List.replicate 8 0)).compressedSize >
      ([1, 2, 3, 4] : List Nat).length := by decide
  have h1 := h0.1 (by simpa using hout)
  exact ⟨h1.1, h1.2⟩

/-- C10: an in-range index record whose full 8-byte compression-method
value is anything other than exactly 1 (not only 0) bypasses the
decoder entirely — the outcome is the stored outcome for any
decompressor whatsoever — and the bytes written are exactly the
`compressed_size` raw bytes at `offset` in the data file, unchanged;
the loop then continues with the next record. -/
theorem C10_stored_passthrough (zdec : List Nat → Option (List Nat))
    (data : List Nat) (w i : Nat) (e : IndexEntry)
    (hc : e.compression ≠ COMPRESSION_ZLIB)
    (hr : e.offset + e.compressedSize ≤ data.length) :
    processRecord zdec data w i e =
      storedOutcome w i ((data.drop e.offset).take e.compressedSize) ∧
    ((data.drop e.offset).take e.compressedSize).length =
      e.compressedSize ∧
    ∀ rest : List IndexEntry,
      extractLoop zdec data w i (e :: rest) =
        ((i, output_filename w i,
            (data.drop e.offset).take e.compressedSize) ::
          (extractLoop zdec data w (i + 1) rest).1,
         (extractLoop zdec data w (i + 1) rest).2.1,
         (extractLoop zdec data w (i + 1) rest).2.2) := by
  have hstep : processRecord zdec data w i e =
      storedOutcome w i ((data.drop e.offset).take e.compressedSize) := by
    rw [processRecord, if_neg (by omega)]
    simp [hc]
  refine ⟨hstep, slice_length data e.offset e.compressedSize hr, ?_⟩
  intro rest
  rw [extractLoop_cons zdec data w i e rest (by rw [hstep]; rfl), hstep]
  rfl

/-- Closed instance of the C10 theorem, with the undocumented method
code 2: the raw bytes `[7, 8, 9]` are passed through unchanged under a
decompressor that rejects every input. -/
theorem C10_stored_passthrough_witness :
    processRecord (fun _ => none) [7, 8, 9] 1 1 ⟨0, 0, 3, 2, [], []⟩ =
      storedOutcome 1 1 [7, 8, 9] ∧
    extractLoop (fun _ => none) [7, 8, 9] 1 1 [⟨0, 0, 3, 2, [], []⟩] =
      ([(1, output_filename 1 1, [7, 8, 9])], [], false) := by
  have h := C10_stored_passthrough (fun _ => none) [7, 8, 9] 1 1
    ⟨0, 0, 3, 2, [], []⟩ (by decide) (by decide)
  refine ⟨by simpa using h.1, ?_⟩
  have h3 := h.2.2 []
  simpa using h3

/-- C3 (amended): each index record is exactly 40 bytes, parsed
little-endian as u64 offset, u64 uncompressed size, u64 compressed
size, a full u64 compression-method word, and two opaque 4-byte tags;
an in-range record takes the deflate path if and only if that full
8-byte value equals exactly 1, and is treated as stored otherwise. -/
theorem C3_record_layout (bs : List Nat) (h : bs.length = INDEX_ENTRY_size) :
    unpackIndexEntry bs = some
      { offset := leVal (bs.take 8)
        uncompressedSize := leVal ((bs.drop 8).take 8)
        compressedSize := leVal ((bs.drop 16).take 8)
        compression := leVal ((bs.drop 24).take 8)
        tag0 := (bs.drop 32).take 4
        tag1 := (bs.drop 36).take 4 } ∧
    INDEX_ENTRY_size = 40 ∧
    ∀ (zdec : List Nat → Option (List Nat)) (data : List Nat) (w i : Nat)
      (e : IndexEntry), e.offset + e.compressedSize ≤ data.length →
      processRecord zdec data w i e =
        if e.compression = COMPRESSION_ZLIB then
          decodeOutcome w i ((data.drop e.offset).take e.compressedSize)
            (decompress_block zdec
              ((data.drop e.offset).take e.compressedSize) i)
        else
          storedOutcome w i ((data.drop e.offset).take e.compressedSize) := by
  refine ⟨by rw [unpackIndexEntry, if_pos h]; rfl, rfl, ?_⟩
  intro zdec data w i e hr
  rw [processRecord, if_neg (by omega)]

/-- Closed instance of the C3 theorem at a concrete 40-byte record. -/
theorem C3_record_layout_witness :
    (List.replicate 40 3).length = INDEX_ENTRY_size ∧
    unpackIndexEntry (List.replicate 40 3) = some
      { offset := leVal ((List.replicate 40 3).take 8)
        uncompressedSize := leVal (((List.replicate 40 3).drop 8).take 8)
        compressedSize := leVal (((List.replicate 40 3).drop 16).take 8)
        compression := leVal (((List.replicate 40 3).drop 24).take 8)
        tag0 := ((List.replicate 40 3).drop 32).take 4
        tag1 := ((List.replicate 40 3).drop 36).take 4 } :=
  ⟨by decide, (C3_record_layout (List.replicate 40 3) (by decide)).1⟩

/-- Counterexample to C3 as stated: a record whose compression-method
bytes are `[1, 1, 0, 0, 0, 0, 0, 0]` has low byte 1, yet its parsed
method value is 257 ≠ 1 and the extractor takes the stored path —
the raw bytes are passed through with no decode diagnostics, even
under a decompressor that rejects everything — rather than being
treated as deflate-compressed. -/
theorem C3_low_byte_counterexample :
    (parseEntry40 (leBytes 8 0 ++ leBytes 8 0 ++ leBytes 8 2 ++
      ([1, 1] ++ List.replicate 6 0) ++ List.replicate 8 0)).compression %
        256 = 1 ∧
    (parseEntry40 (leBytes 8 0 ++ leBytes 8 0 ++ leBytes 8 2 ++
      ([1, 1] ++ List.replicate 6 0) ++ List.replicate 8 0)).compression =
        257 ∧
    processRecord (fun _ => none) [9, 9] 1 1
        (parseEntry40 (leBytes 8 0 ++ leBytes 8 0 ++ leBytes 8 2 ++
          ([1, 1] ++ List.replicate 6 0) ++ List.replicate 8 0)) =
      storedOutcome 1 1 [9, 9] := by
  refine ⟨by decide, by decide, ?_⟩
  decide

/-- C1 (what the code actually does at a failing input): for a
one-record index with `compression_method == 1` whose 128-byte block
fails to decode (declared field count 1, no non-zero size slots, so the
decoder reports FieldOverflow and returns None), the run emits the
diagnostic but still writes an output file for that block containing
all 128 raw compressed bytes — not zero bytes — because the caller only
replaces `block_data` when the decode result `is not None` and writes
unconditionally. -/
theorem C1_decode_failure_still_writes_raw :
    Diag.fieldOverflow 1 ∈
      (extract_blocks (fun _ => none)
        (leBytes 8 0 ++ leBytes 8 0 ++ leBytes 8 128 ++ leBytes 8 1 ++
          List.replicate 8 0) (buildHeader 0 1 0 [])).diags ∧
    (extract_blocks (fun _ => none)
        (leBytes 8 0 ++ leBytes 8 0 ++ leBytes 8 128 ++ leBytes 8 1 ++
          List.replicate 8 0) (buildHeader 0 1 0 [])).files =
      [(1, output_filename 0 1, buildHeader 0 1 0 [])] ∧
    (buildHeader 0 1 0 []).length = 128 := by
  have hidx : read_index_entries
      (leBytes 8 0 ++ leBytes 8 0 ++ leBytes 8 128 ++ leBytes 8 1 ++
        List.replicate 8 0) =
      ([parseEntry40 (leBytes 8 0 ++ leBytes 8 0 ++ leBytes 8 128 ++
          leBytes 8 1 ++ List.replicate 8 0)], false) := by
    have hsplit : leBytes 8 0 ++ leBytes 8 0 ++ leBytes 8 128 ++
        leBytes 8 1 ++ List.replicate 8 0 =
        [leBytes 8 0 ++ leBytes 8 0 ++ leBytes 8 128 ++ leBytes 8 1 ++
          List.replicate 8 0].flatten ++ [] := by simp
    rw [hsplit, read_index_entries,
      readEntriesLoop_spec _ _ (by decide) (by decide)]
    simp
  rw [extract_blocks, hidx]
  have hw : filename_digits
      ([parseEntry40 (leBytes 8 0 ++ leBytes 8 0 ++ leBytes 8 128 ++
          leBytes 8 1 ++ List.replicate 8 0)] : List IndexEntry).length = 0 := by
    simp [filename_digits, Nat.clog_one_right]
  rw [hw]
  refine ⟨?_, ?_, by decide⟩
  · decide
  · decide

/-- Decoding the `w` little-endian bytes of `n` gives `n % 256^w`. -/
lemma leVal_leBytes (w n : Nat) : leVal (leBytes w n) = n % 256 ^ w := by
  induction w generalizing n with
  | zero => simp [leBytes, leVal, Nat.mod_one]
  | succ w ih =>
    have hsplit : n % (256 * 256 ^ w) = n % 256 + 256 * (n / 256 % 256 ^ w) :=
      Nat.mod_mul
    simp only [leBytes, leVal, ih, pow_succ]
    rw [mul_comm (256 ^ w) 256, hsplit]
    generalize n / 256 % 256 ^ w = X
    omega

/-- `leBytes` always produces exactly `w` bytes. -/
lemma leBytes_length (w n : Nat) : (leBytes w n).length = w := by
  induction w generalizing n with
  | zero => rfl
  | succ w ih => simp [leBytes, ih]

/-- Unpacking a 4-byte little-endian encoding prepended to a tail
peels off the encoded value reduced mod 2^32. -/
lemma unpackU32List_leBytes_cons (s : Nat) (rest : List Nat) :
    unpackU32List (leBytes 4 s ++ rest) =
      s % 2 ^ 32 :: unpackU32List rest := by
  have h4 : leVal (leBytes 4 s) = s % 2 ^ 32 := by
    rw [leVal_leBytes]
    norm_num
  simp only [leBytes, List.cons_append, List.nil_append, unpackU32List]
  rw [← h4]
  simp [leBytes, leVal]

/-- Unpacking the concatenation of 4-byte encodings recovers every slot
value mod 2^32. -/
lemma unpackU32List_flatten (slots : List Nat) :
    unpackU32List ((slots.map (leBytes 4)).flatten) =
      slots.map (fun s => s % 2 ^ 32) := by
  induction slots with
  | nil => rfl
  | cons s rest ih =>
    simp only [List.map_cons, List.flatten_cons]
    rw [unpackU32List_leBytes_cons, ih]

/-- The flattened 4-byte encodings of `k` slots occupy `4 * k` bytes. -/
lemma flatten_leBytes_length (slots : List Nat) :
    ((slots.map (leBytes 4)).flatten).length = 4 * slots.length := by
  induction slots with
  | nil => rfl
  | cons s rest ih =>
    simp only [List.map_cons, List.flatten_cons, List.length_append,
      leBytes_length, ih, List.length_cons]
    omega

/-- A built sub-header is exactly 128 bytes when at most 29 sizes are
given. -/
lemma buildHeader_length (a0 d a2 : Nat) (sizes : List Nat)
    (h : sizes.length ≤ 29) :
    (buildHeader a0 d a2 sizes).length = DATA_ENTRY_HEADER_size := by
  rw [buildHeader, flatten_leBytes_length]
  simp only [List.length_append, List.length_cons, List.length_nil,
    List.length_replicate, DATA_ENTRY_HEADER_size]
  omega

/-- Cursor arithmetic: `alignUp` never moves backwards. -/
lemma le_alignUp (n : Nat) : n ≤ alignUp n := by
  rw [alignUp, FIELD_ALIGNMENT]
  omega

/-- `alignUp` lands on a multiple of the alignment. -/
lemma alignUp_mod (n : Nat) : alignUp n % FIELD_ALIGNMENT = 0 := by
  rw [alignUp, FIELD_ALIGNMENT]
  omega

/-- Aligning past a position that is already aligned distributes. -/
lemma alignUp_add_of_aligned (a b : Nat) (h : a % FIELD_ALIGNMENT = 0) :
    alignUp (a + b) = a + alignUp b := by
  rw [alignUp, alignUp, FIELD_ALIGNMENT] at *
  omega

/-- A built field occupies exactly the aligned span of its size. -/
lemma buildField_length (wb c : List Nat) (hw : wb.length = 4) :
    (buildField wb c).length = alignUp (4 + c.length) := by
  have := le_alignUp (4 + c.length)
  simp only [buildField, List.length_append, List.length_replicate, hw]
  omega

/-- `buildFields` unfolds one field at a time. -/
lemma buildFields_cons (f : List Nat × List Nat)
    (rest : List (List Nat × List Nat)) :
    buildFields (f :: rest) = buildField f.1 f.2 ++ buildFields rest := by
  simp [buildFields]

/-- `mismatchDiags` unfolds one field at a time. -/
lemma mismatchDiags_cons (blockId : Nat) (f : List Nat × List Nat)
    (rest : List (List Nat × List Nat)) :
    mismatchDiags blockId (f :: rest) =
      (if ((4 + f.2.length : Nat) : Int) - 4 ≠ (leVal f.1 : Int) then
        [Diag.sizeMismatch blockId (leVal f.1)
          (((4 + f.2.length : Nat) : Int) - 4)]
      else []) ++ mismatchDiags blockId rest := by
  rw [mismatchDiags, List.filterMap_cons, mismatchDiags]
  split
  · simp_all
  · simp_all

/-- Main decoding induction: walking the field loop over a block whose
field area was laid out by `buildFields` (arbitrary leading 4 inner
bytes per field, payload, zero padding to the 128-byte boundary)
decompresses every payload in order, accumulating exactly the
size-mismatch diagnostics of the fields whose inner bytes are wrong. -/
lemma processFields_build (zdec : List Nat → Option (List Nat))
    (blockId : Nat) :
    ∀ (flds : List (List Nat × List Nat)) (ps : List (List Nat))
      (pre acc : List Nat) (diags : List Diag),
      pre.length % FIELD_ALIGNMENT = 0 →
      (∀ f ∈ flds, f.1.length = 4) →
      List.Forall₂ (fun f p => zdec f.2 = some p) flds ps →
      processFields zdec (pre ++ buildFields flds) blockId pre.length
        (flds.map (fun f => 4 + f.2.length)) acc diags =
        .ok (acc ++ ps.flatten) (diags ++ mismatchDiags blockId flds) := by
  intro flds
  induction flds with
  | nil =>
    intro ps pre acc diags hpre hw hz
    cases hz
    simp [processFields, mismatchDiags]
  | cons f rest ih =>
    intro ps pre acc diags hpre hw hz
    cases hz with
    | cons hzf hzrest =>
      rename_i p ps'
      have hwf : f.1.length = 4 := hw f (by simp)
      have hfield : buildField f.1 f.2 = (f.1 ++ f.2) ++
          List.replicate (alignUp (4 + f.2.length) - (4 + f.2.length)) 0 := by
        rw [buildField, List.append_assoc]
      have hfslen : (f.1 ++ f.2).length = 4 + f.2.length := by
        simp [hwf]
      have htake : (buildFields (f :: rest)).take (4 + f.2.length) =
          f.1 ++ f.2 := by
        rw [buildFields_cons, hfield, List.append_assoc, ← hfslen,
          List.take_left]
      have hpayload : ((pre ++ buildFields (f :: rest)).drop pre.length).take
          (4 + f.2.length) = f.1 ++ f.2 := by
        rw [List.drop_left, htake]
      have htake4 : (f.1 ++ f.2).take 4 = f.1 := by
        rw [← hwf, List.take_left]
      have hdrop4 : (f.1 ++ f.2).drop 4 = f.2 := by
        rw [← hwf, List.drop_left]
      have hu32 : unpackU32 f.1 = some (leVal f.1) := by
        rw [unpackU32, if_pos hwf]
      have hcursor : alignUp (pre.length + (4 + f.2.length)) =
          (pre ++ buildField f.1 f.2).length := by
        rw [alignUp_add_of_aligned _ _ hpre, List.length_append,
          buildField_length f.1 f.2 hwf]
      have hre : pre ++ buildFields (f :: rest) =
          (pre ++ buildField f.1 f.2) ++ buildFields rest := by
        rw [buildFields_cons, List.append_assoc]
      have hpre' : (pre ++ buildField f.1 f.2).length % FIELD_ALIGNMENT
          = 0 := by
        rw [List.length_append, buildField_length f.1 f.2 hwf]
        have h1 := alignUp_mod (4 + f.2.length)
        rw [FIELD_ALIGNMENT] at h1 hpre ⊢
        omega
      simp only [List.map_cons, processFields, hpayload, htake4, hdrop4,
        hu32, hzf]
      rw [hcursor]
      conv in (pre ++ buildFields (f :: rest)) => rw [hre]
      rw [ih ps' (pre ++ buildField f.1 f.2) (acc ++ p) _ hpre'
        (fun x hx => hw x (by simp [hx])) hzrest]
      rw [mismatchDiags_cons]
      by_cases hcond : ((4 + f.2.length : Nat) : Int) - 4 ≠ (leVal f.1 : Int)
      · rw [if_pos hcond, if_pos hcond]
        simp
      · rw [if_neg hcond, if_neg hcond]
        simp

/-- The built field-size list survives the source's positivity filter. -/
lemma filter_sizes (flds : List (List Nat × List Nat)) (k : Nat) :
    ((flds.map (fun q : List Nat × List Nat => 4 + q.2.length) ++
      List.replicate k 0)).filter (fun s => decide (0 < s)) =
      flds.map (fun q : List Nat × List Nat => 4 + q.2.length) := by
  induction flds with
  | nil =>
    simp only [List.map_nil, List.nil_append]
    induction k with
    | zero => rfl
    | succ k ihk => simpa [List.replicate_succ, List.filter_cons] using ihk
  | cons g rest ih =>
    simp only [List.map_cons, List.cons_append, List.filter_cons]
    rw [ih]
    norm_num

set_option maxHeartbeats 1000000 in
/-- `decompress_block` on a fully built block: header parse, overflow
check, and the field walk, for arbitrary per-field inner bytes. -/
lemma decode_build (zdec : List Nat → Option (List Nat))
    (blockId a0 d a2 : Nat) (flds : List (List Nat × List Nat))
    (ps : List (List Nat))
    (hw : ∀ f ∈ flds, f.1.length = 4)
    (hz : List.Forall₂ (fun f p => zdec f.2 = some p) flds ps)
    (hsz : ∀ f ∈ flds, 4 + f.2.length < 2 ^ 32)
    (hM : flds.length ≤ 29) (hd : d ≤ flds.length) (hd32 : d < 2 ^ 32) :
    decompress_block zdec
      (buildHeader a0 d a2 (flds.map (fun f => 4 + f.2.length)) ++
        buildFields flds) blockId =
      .ok ps.flatten (mismatchDiags blockId flds) := by
  have hlens : (flds.map (fun f => 4 + f.2.length)).length = flds.length := by
    simp
  have hHlen : (buildHeader a0 d a2
      (flds.map (fun f => 4 + f.2.length))).length =
      DATA_ENTRY_HEADER_size :=
    buildHeader_length _ _ _ _ (by omega)
  have htakeH : ((buildHeader a0 d a2 (flds.map (fun f => 4 + f.2.length)))
      ++ buildFields flds).take DATA_ENTRY_HEADER_size =
      buildHeader a0 d a2 (flds.map (fun f => 4 + f.2.length)) := by
    rw [← hHlen, List.take_left]
  have hhdr : unpackHeader (buildHeader a0 d a2
      (flds.map (fun f => 4 + f.2.length))) =
      some (unpackU32List (buildHeader a0 d a2
        (flds.map (fun f => 4 + f.2.length)))) := by
    rw [unpackHeader, if_pos hHlen]
  have hsizes_id : (flds.map (fun f => 4 + f.2.length)).map
      (fun s => s % 2 ^ 32) = flds.map (fun f => 4 + f.2.length) := by
    rw [List.map_map]
    apply List.map_congr_left
    intro f hf
    exact Nat.mod_eq_of_lt (hsz f hf)
  have hparse : unpackU32List (buildHeader a0 d a2
      (flds.map (fun f => 4 + f.2.length))) =
      a0 % 2 ^ 32 :: d % 2 ^ 32 :: a2 % 2 ^ 32 ::
        (flds.map (fun f => 4 + f.2.length) ++
          List.replicate (29 - flds.length) 0) := by
    rw [buildHeader, unpackU32List_flatten]
    simp only [List.map_append, List.map_cons, List.map_nil,
      List.map_replicate, Nat.zero_mod, hsizes_id, hlens]
    simp
  have hdmod : d % 2 ^ 32 = d := Nat.mod_eq_of_lt hd32
  simp only [decompress_block, htakeH, hhdr, hparse]
  simp only [List.drop_succ_cons, List.drop_zero, List.getD_cons_succ,
    List.getD_cons_zero, filter_sizes, hlens, hdmod]
  rw [if_neg (by omega)]
  rw [← hHlen]
  have hpre : (buildHeader a0 d a2
      (flds.map (fun f => 4 + f.2.length))).length % FIELD_ALIGNMENT = 0 := by
    rw [hHlen]
    rfl
  have hmain := processFields_build zdec blockId flds ps
    (buildHeader a0 d a2 (flds.map (fun f => 4 + f.2.length))) [] []
  have hmain2 := hmain hpre hw hz
  simpa using hmain2

/-- Decoding a built block whose every field carries the correct
4-byte inner size succeeds with no diagnostics at all. -/
lemma decode_build_correct (zdec : List Nat → Option (List Nat))
    (blockId a0 d a2 : Nat) (flds : List (List Nat × List Nat))
    (ps : List (List Nat))
    (hz : List.Forall₂ (fun f p => zdec f.2 = some p) flds ps)
    (hsz : ∀ f ∈ flds, 4 + f.2.length < 2 ^ 32)
    (hM : flds.length ≤ 29) (hd : d ≤ flds.length) (hd32 : d < 2 ^ 32) :
    decompress_block zdec
      (buildHeader a0 d a2 (flds.map (fun f => 4 + f.2.length)) ++
        buildFields (flds.map (fun f : List Nat × List Nat =>
          (leBytes 4 f.2.length, f.2)))) blockId =
      .ok ps.flatten [] := by
  have hmap : (flds.map (fun f : List Nat × List Nat =>
      (leBytes 4 f.2.length, f.2))).map (fun f => 4 + f.2.length) =
      flds.map (fun f => 4 + f.2.length) := by
    rw [List.map_map]
    rfl
  have hw' : ∀ f ∈ flds.map (fun f : List Nat × List Nat =>
      (leBytes 4 f.2.length, f.2)), f.1.length = 4 := by
    intro f hf
    obtain ⟨g, hg, rfl⟩ := List.mem_map.mp hf
    exact leBytes_length 4 g.2.length
  have hz' : List.Forall₂ (fun f p => zdec f.2 = some p)
      (flds.map (fun f : List Nat × List Nat =>
        (leBytes 4 f.2.length, f.2))) ps := by
    rw [List.forall₂_map_left_iff]
    exact hz
  have hsz' : ∀ f ∈ flds.map (fun f : List Nat × List Nat =>
      (leBytes 4 f.2.length, f.2)), 4 + f.2.length < 2 ^ 32 := by
    intro f hf
    obtain ⟨g, hg, rfl⟩ := List.mem_map.mp hf
    exact hsz g hg
  have hnil : mismatchDiags blockId (flds.map
      (fun f : List Nat × List Nat => (leBytes 4 f.2.length, f.2))) = [] := by
    rw [mismatchDiags, List.filterMap_eq_nil]
    intro f hf
    obtain ⟨g, hg, rfl⟩ := List.mem_map.mp hf
    rw [if_neg]
    simp only [ne_eq, not_not]
    have hlt : g.2.length < 2 ^ 32 := by
      have := hsz g hg
      omega
    have hle : leVal (leBytes 4 g.2.length) = g.2.length := by
      rw [leVal_leBytes]
      have h4 : (256 : Nat) ^ 4 = 2 ^ 32 := by norm_num
      rw [h4]
      exact Nat.mod_eq_of_lt hlt
    rw [hle]
    push_cast
    ring
  have h := decode_build zdec blockId a0 d a2
    (flds.map (fun f : List Nat × List Nat => (leBytes 4 f.2.length, f.2)))
    ps hw' hz' hsz' (by simpa using hM) (by simpa using hd) hd32
  rw [hmap, hnil] at h
  exact h

/-- C5: round-trip — a block built from M compressed payloads, each
field prefixed by its correct 4-byte inner size and zero-padded to the
next 128-byte boundary, under a correct 32-slot sub-header (declared
count ≤ M, the M field sizes as the non-zero candidates in order),
decodes to exactly the concatenation of the original payloads in order
with no separators, for any decompressor that inverts the compressed
fields. -/
theorem C5_roundtrip (zdec : List Nat → Option (List Nat))
    (blockId a0 d a2 : Nat) (pcs : List (List Nat × List Nat))
    (hz : ∀ pc ∈ pcs, zdec pc.2 = some pc.1)
    (hsz : ∀ pc ∈ pcs, 4 + pc.2.length < 2 ^ 32)
    (hM : pcs.length ≤ 29) (hd : d ≤ pcs.length) (hd32 : d < 2 ^ 32) :
    decompress_block zdec
      (buildHeader a0 d a2 (pcs.map (fun pc => 4 + pc.2.length)) ++
        buildFields (pcs.map (fun pc : List Nat × List Nat =>
          (leBytes 4 pc.2.length, pc.2)))) blockId =
      .ok (pcs.map (fun pc : List Nat × List Nat => pc.1)).flatten [] := by
  apply decode_build_correct zdec blockId a0 d a2 pcs
    (pcs.map (fun pc : List Nat × List Nat => pc.1)) _ hsz hM hd hd32
  rw [List.forall₂_map_right_iff]
  rw [List.forall₂_same]
  exact hz

/-- Closed instance of the C5 theorem: payloads `[5, 9]` and `[7, 8]`
under the identity codec concatenate back exactly. -/
theorem C5_roundtrip_witness :
    decompress_block (fun c => some c)
      (buildHeader 0 2 0 [6, 6] ++
        buildFields [(leBytes 4 2, [5, 9]), (leBytes 4 2, [7, 8])]) 1 =
      .ok [5, 9, 7, 8] [] :=
  C5_roundtrip (fun c => some c) 1 0 2 0 [([5, 9], [5, 9]), ([7, 8], [7, 8])]
    (by decide) (by decide) (by decide) (by decide) (by decide)

/-- C8: the 4-byte inner declared size of a field is advisory only —
decoding a built block with arbitrary inner bytes per field (1) still
succeeds and returns exactly the concatenated decompressed payloads,
with a size-mismatch diagnostic accumulated per wrong field, (2) emits
the size-mismatch diagnostic for every field whose inner value differs
from `field_size - 4`, and (3) returns a buffer identical to the one
produced when every inner size is correct. -/
theorem C8_inner_size_advisory (zdec : List Nat → Option (List Nat))
    (blockId a0 d a2 : Nat) (flds : List (List Nat × List Nat))
    (ps : List (List Nat))
    (hw : ∀ f ∈ flds, f.1.length = 4)
    (hz : List.Forall₂ (fun f p => zdec f.2 = some p) flds ps)
    (hsz : ∀ f ∈ flds, 4 + f.2.length < 2 ^ 32)
    (hM : flds.length ≤ 29) (hd : d ≤ flds.length) (hd32 : d < 2 ^ 32) :
    decompress_block zdec
      (buildHeader a0 d a2 (flds.map (fun f => 4 + f.2.length)) ++
        buildFields flds) blockId =
      .ok ps.flatten (mismatchDiags blockId flds) ∧
    (∀ f ∈ flds, leVal f.1 ≠ f.2.length →
      Diag.sizeMismatch blockId (leVal f.1)
          (((4 + f.2.length : Nat) : Int) - 4) ∈
        mismatchDiags blockId flds) ∧
    decompress_block zdec
      (buildHeader a0 d a2 (flds.map (fun f => 4 + f.2.length)) ++
        buildFields (flds.map (fun f : List Nat × List Nat =>
          (leBytes 4 f.2.length, f.2)))) blockId =
      .ok ps.flatten [] := by
  refine ⟨decode_build zdec blockId a0 d a2 flds ps hw hz hsz hM hd hd32,
    ?_, decode_build_correct zdec blockId a0 d a2 flds ps hz hsz hM hd hd32⟩
  intro f hf hne
  rw [mismatchDiags]
  apply List.mem_filterMap.mpr
  refine ⟨f, hf, ?_⟩
  rw [if_pos]
  push_cast
  omega

/-- Closed instance of the C8 theorem: one field with wrong inner
value 7 (the compressed payload is 2 bytes) still decodes, with the
mismatch diagnostic, to the same buffer as the corrected block. -/
theorem C8_inner_size_advisory_witness :
    decompress_block (fun c => some c)
      (buildHeader 0 1 0 [6] ++ buildFields [(leBytes 4 7, [5, 9])]) 1 =
      .ok [5, 9] [Diag.sizeMismatch 1 7 2] ∧
    Diag.sizeMismatch 1 7 2 ∈ mismatchDiags 1 [(leBytes 4 7, [5, 9])] ∧
    decompress_block (fun c => some c)
      (buildHeader 0 1 0 [6] ++ buildFields [(leBytes 4 2, [5, 9])]) 1 =
      .ok [5, 9] [] := by
  have h := C8_inner_size_advisory (fun c => some c) 1 0 1 0
    [(leBytes 4 7, [5, 9])] [[5, 9]] (by decide)
    (by constructor
        · rfl
        · constructor)
    (by decide) (by decide) (by decide) (by decide)
  refine ⟨?_, ?_, ?_⟩
  · have h1 := h.1
    simpa using h1
  · exact h.2.1 (leBytes 4 7, [5, 9]) (by decide) (by decide)
  · have h3 := h.2.2
    simpa using h3

/-- Numeric value of a most-significant-first digit list. -/
def valOf : List Nat → Nat
  | [] => 0
  | d :: ds => d * 10 ^ ds.length + valOf ds

/-- A digit list of digits below 10 values below `10^length`. -/
lemma valOf_lt (ds : List Nat) (h : ∀ d ∈ ds, d < 10) :
    valOf ds < 10 ^ ds.length := by
  induction ds with
  | nil => simp [valOf]
  | cons d ds ih =>
    have hd : d < 10 := h d (by simp)
    have hds := ih (fun x hx => h x (by simp [hx]))
    simp only [valOf, List.length_cons, pow_succ]
    calc d * 10 ^ ds.length + valOf ds
        < d * 10 ^ ds.length + 10 ^ ds.length := by omega
      _ = (d + 1) * 10 ^ ds.length := by ring
      _ ≤ 10 * 10 ^ ds.length := by
          have : d + 1 ≤ 10 := by omega
          exact Nat.mul_le_mul_right _ this
      _ = 10 ^ ds.length * 10 := by ring

/-- Appending a final digit multiplies the value by ten. -/
lemma valOf_append_digit (ds : List Nat) (d : Nat) :
    valOf (ds ++ [d]) = 10 * valOf ds + d := by
  induction ds with
  | nil => simp [valOf]
  | cons a ds ih =>
    have hlen : (ds ++ [d]).length = ds.length + 1 := by simp
    simp only [List.cons_append, valOf, List.append_eq, hlen, ih, pow_succ]
    ring

/-- The fueled digit expansion evaluates back to the number whenever
the fuel covers it. -/
lemma valOf_decDigitsAux (fuel : Nat) :
    ∀ n, n ≤ fuel → valOf (decDigitsAux fuel n) = n := by
  induction fuel with
  | zero =>
    intro n hn
    have : n = 0 := by omega
    subst this
    simp [decDigitsAux, valOf]
  | succ fuel ih =>
    intro n hn
    by_cases h10 : n < 10
    · simp [decDigitsAux, h10, valOf]
    · have hdiv : n / 10 ≤ fuel := by omega
      simp only [decDigitsAux, if_neg h10, valOf_append_digit, ih _ hdiv]
      omega

/-- The digits of `decDigits` equal their number. -/
lemma valOf_decDigits (n : Nat) : valOf (decDigits n) = n :=
  valOf_decDigitsAux n n le_rfl

/-- Every digit the expansion produces is below 10. -/
lemma decDigitsAux_lt (fuel : Nat) :
    ∀ n d, d ∈ decDigitsAux fuel n → d < 10 := by
  induction fuel with
  | zero =>
    intro n d hd
    simp only [decDigitsAux, List.mem_singleton] at hd
    omega
  | succ fuel ih =>
    intro n d hd
    by_cases h10 : n < 10
    · simp [decDigitsAux, h10] at hd
      omega
    · simp only [decDigitsAux, if_neg h10, List.mem_append,
        List.mem_singleton] at hd
      rcases hd with hd | hd
      · exact ih _ _ hd
      · omega

/-- The expansion of `n < 10^w` (`w ≥ 1`) has at most `w` digits. -/
lemma decDigitsAux_length_le (fuel : Nat) :
    ∀ n w, n < 10 ^ w → 1 ≤ w → (decDigitsAux fuel n).length ≤ w := by
  induction fuel with
  | zero =>
    intro n w hn hw
    simpa [decDigitsAux] using hw
  | succ fuel ih =>
    intro n w hn hw
    by_cases h10 : n < 10
    · simpa [decDigitsAux, h10] using hw
    · have hw2 : 2 ≤ w := by
        by_contra hc
        have hw1 : w = 1 := by omega
        subst hw1
        simp at hn
        omega
      have hdiv : n / 10 < 10 ^ (w - 1) := by
        have hpow : 10 ^ w = 10 ^ (w - 1) * 10 := by
          have : w - 1 + 1 = w := by omega
          rw [← this, pow_succ]
          simp
        rw [Nat.div_lt_iff_lt_mul (by omega)]
        omega
      have := ih (n / 10) (w - 1) hdiv (by omega)
      simp only [decDigitsAux, if_neg h10, List.length_append,
        List.length_cons, List.length_nil]
      omega

/-- Zero padding preserves the numeric value of a digit list. -/
lemma valOf_zeroPad (w : Nat) (ds : List Nat) :
    valOf (zeroPad w ds) = valOf ds := by
  rw [zeroPad]
  induction w - ds.length with
  | zero => simp
  | succ k ih => simpa [List.replicate_succ, valOf] using ih

/-- Zero padding a short digit list reaches exactly the target width. -/
lemma zeroPad_length (w : Nat) (ds : List Nat) (h : ds.length ≤ w) :
    (zeroPad w ds).length = w := by
  simp only [zeroPad, List.length_append, List.length_replicate]
  omega

/-- Zero padding keeps every digit below 10. -/
lemma zeroPad_digits_lt (w : Nat) (ds : List Nat)
    (h : ∀ d ∈ ds, d < 10) : ∀ d ∈ zeroPad w ds, d < 10 := by
  intro d hd
  rcases List.mem_append.mp hd with hz | hm
  · have := List.eq_of_mem_replicate hz
    omega
  · exact h d hm

/-- Equal-length digit lists compare lexicographically exactly as their
values when all digits are below 10. -/
lemma lexLt_of_valOf_lt :
    ∀ (as bs : List Nat), as.length = bs.length →
      (∀ d ∈ as, d < 10) → (∀ d ∈ bs, d < 10) →
      valOf as < valOf bs → lexLt as bs = true := by
  intro as
  induction as with
  | nil =>
    intro bs hlen ha hb hv
    cases bs with
    | nil => simp [valOf] at hv
    | cons b bs => simp at hlen
  | cons a as ih =>
    intro bs hlen ha hb hv
    cases bs with
    | nil => simp at hlen
    | cons b bs =>
      have hlen' : as.length = bs.length := by
        simpa using hlen
      have hva : valOf as < 10 ^ as.length :=
        valOf_lt as (fun d hd => ha d (by simp [hd]))
      have hvb : valOf bs < 10 ^ bs.length :=
        valOf_lt bs (fun d hd => hb d (by simp [hd]))
      simp only [valOf, hlen'] at hv
      have hab : a ≤ b := by
        by_contra hc
        have hc' : b + 1 ≤ a := by omega
        have h1 : (b + 1) * 10 ^ bs.length ≤ a * 10 ^ bs.length :=
          Nat.mul_le_mul_right _ hc'
        have h2 : b * 10 ^ bs.length + valOf bs <
            (b + 1) * 10 ^ bs.length := by
          have : (b + 1) * 10 ^ bs.length =
              b * 10 ^ bs.length + 10 ^ bs.length := by ring
          omega
        omega
      rw [lexLt]
      rcases Nat.lt_or_ge a b with hlt | hge
      · simp [hlt]
      · have heq : a = b := by omega
        subst heq
        have hv' : valOf as < valOf bs := by omega
        simp [ih bs hlen' (fun d hd => ha d (by simp [hd]))
          (fun d hd => hb d (by simp [hd])) hv']

/-- Adding a constant to every element preserves strict lexicographic
comparison. -/
lemma lexLt_map_add (c : Nat) :
    ∀ as bs : List Nat,
      lexLt (as.map (fun d => c + d)) (bs.map (fun d => c + d)) =
        lexLt as bs := by
  intro as
  induction as with
  | nil =>
    intro bs
    cases bs with
    | nil => rfl
    | cons b bs => rfl
  | cons a as ih =>
    intro bs
    cases bs with
    | nil => rfl
    | cons b bs =>
      simp only [List.map_cons, lexLt, ih bs]
      have h1 : decide (c + a < c + b) = decide (a < b) := by
        by_cases h : a < b
        · simp [h]
        · simp [h]
      have h2 : (c + a == c + b) = (a == b) := by
        by_cases h : a = b
        · simp [h]
        · have : ¬ c + a = c + b := by omega
          simp [h, this]
      rw [h1, h2]

/-- A common suffix preserves strict lexicographic comparison of
equal-length prefixes. -/
lemma lexLt_append_right (t : List Nat) :
    ∀ as bs : List Nat, as.length = bs.length → lexLt as bs = true →
      lexLt (as ++ t) (bs ++ t) = true := by
  intro as
  induction as with
  | nil =>
    intro bs hlen hab
    cases bs with
    | nil => simp [lexLt] at hab
    | cons b bs => simp at hlen
  | cons a as ih =>
    intro bs hlen hab
    cases bs with
    | nil => simp at hlen
    | cons b bs =>
      have hlen' : as.length = bs.length := by simpa using hlen
      simp only [lexLt, Bool.or_eq_true, decide_eq_true_eq,
        Bool.and_eq_true, beq_iff_eq] at hab
      simp only [List.cons_append, lexLt, Bool.or_eq_true,
        decide_eq_true_eq, Bool.and_eq_true, beq_iff_eq]
      rcases hab with hlt | ⟨heq, hrec⟩
      · exact Or.inl hlt
      · exact Or.inr ⟨heq, ih bs hlen' hrec⟩

/-- Filenames of ids whose digit expansions fit the padding width
compare lexicographically as the ids themselves. -/
lemma output_filename_lt (w i j : Nat) (hij : i < j)
    (hi : (decDigits i).length ≤ w) (hj : (decDigits j).length ≤ w) :
    lexLt (output_filename w i) (output_filename w j) = true := by
  rw [output_filename, output_filename]
  apply lexLt_append_right
  · simp only [List.length_map]
    rw [zeroPad_length w _ hi, zeroPad_length w _ hj]
  · rw [lexLt_map_add]
    apply lexLt_of_valOf_lt
    · rw [zeroPad_length w _ hi, zeroPad_length w _ hj]
    · exact zeroPad_digits_lt w _ (fun d hd => decDigitsAux_lt i i d hd)
    · exact zeroPad_digits_lt w _ (fun d hd => decDigitsAux_lt j j d hd)
    · rw [valOf_zeroPad, valOf_zeroPad, valOf_decDigits, valOf_decDigits]
      exact hij

/-- When the record count is at least 2 and not a power of ten, every
id up to the count has at most `clog 10 N` digits. -/
lemma decDigits_length_le_clog (N i : Nat)
    (hnp : ∀ k, 1 ≤ k → N ≠ 10 ^ k) (hN2 : 2 ≤ N) (hi : i ≤ N) :
    (decDigits i).length ≤ Nat.clog 10 N := by
  have hw1 : 1 ≤ Nat.clog 10 N := Nat.clog_pos (by norm_num) hN2
  have hle : N ≤ 10 ^ Nat.clog 10 N :=
    Nat.le_pow_clog (b := 10) (by norm_num) N
  have hne : N ≠ 10 ^ Nat.clog 10 N := hnp _ hw1
  have hlt : i < 10 ^ Nat.clog 10 N := by omega
  exact decDigitsAux_length_le i i _ hlt hw1

/-- C4 (amended): for a run over N ≥ 1 parsed records with N not a
power of ten, every output file is named by its block's 1-based number
zero-padded to exactly `ceil(log10 N)` digits, and those filenames
order lexicographically exactly as the block numbers do. -/
theorem C4_filename_ordering (zdec : List Nat → Option (List Nat))
    (idx data : List Nat)
    (hN : 1 ≤ (read_index_entries idx).1.length)
    (hnp : ∀ k, 1 ≤ k → (read_index_entries idx).1.length ≠ 10 ^ k) :
    (∀ f ∈ (extract_blocks zdec idx data).files,
      f.2.1 = output_filename
        (filename_digits (read_index_entries idx).1.length) f.1 ∧
      1 ≤ f.1 ∧ f.1 ≤ (read_index_entries idx).1.length) ∧
    (∀ i j, i < j → j ≤ (read_index_entries idx).1.length →
      lexLt
        (output_filename
          (filename_digits (read_index_entries idx).1.length) i)
        (output_filename
          (filename_digits (read_index_entries idx).1.length) j) =
        true) := by
  constructor
  · intro f hf
    have := extractLoop_files_mem zdec data
      (filename_digits (read_index_entries idx).1.length)
      (read_index_entries idx).1 1 f hf
    exact ⟨this.1, this.2.1, by omega⟩
  · intro i j hij hj
    rcases Nat.lt_or_ge (read_index_entries idx).1.length 2 with hN1 | hN2
    · have hN1' : (read_index_entries idx).1.length = 1 := by omega
      have hi0 : i = 0 := by omega
      have hj1 : j = 1 := by omega
      subst hi0 hj1
      rw [hN1']
      have hfd : filename_digits 1 = 0 := by
        rw [filename_digits, if_neg (by omega)]
        exact Nat.clog_one_right 10
      rw [hfd]
      decide
    · have hfd : filename_digits (read_index_entries idx).1.length =
          Nat.clog 10 (read_index_entries idx).1.length := by
        rw [filename_digits, if_neg (by omega)]
      rw [hfd]
      exact output_filename_lt _ i j hij
        (decDigits_length_le_clog _ i hnp hN2 (by omega))
        (decDigits_length_le_clog _ j hnp hN2 hj)

/-- Closed instance of the C4 theorem at N = 2 records: the two
filenames order as the block numbers. -/
theorem C4_filename_ordering_witness :
    lexLt (output_filename (filename_digits 2) 1)
      (output_filename (filename_digits 2) 2) = true := by
  have hidx : read_index_entries (List.replicate 80 0) =
      ([parseEntry40 (List.replicate 40 0),
        parseEntry40 (List.replicate 40 0)], false) := by
    have hsplit : List.replicate 80 (0 : Nat) =
        [List.replicate 40 0, List.replicate 40 0].flatten ++ [] := by
      decide
    rw [hsplit, read_index_entries,
      readEntriesLoop_spec _ _ (by decide) (by decide)]
    rfl
  have h := C4_filename_ordering (fun _ => none) (List.replicate 80 0) []
    (by rw [hidx]; decide)
    (by
      rw [hidx]
      intro k hk
      have h10 : 10 ^ 1 ≤ 10 ^ k := Nat.pow_le_pow_right (by norm_num) hk
      simp only [List.length_cons, List.length_nil]
      omega)
  have h2 := h.2 1 2 (by omega) (by rw [hidx]; simp)
  rw [hidx] at h2
  simpa using h2

/-- Counterexample to C4 as stated: with N = 10 records the padding
width the code uses is `ceil(log10 10) = 1`, not the decimal digit
count 2 of N; block 1's file is named `1.bin`, not `01.bin`, and the
file of block 10 sorts lexicographically before the file of block 2
although 2 < 10 numerically. -/
theorem C4_counterexample_ten_records :
    (read_index_entries (List.replicate 400 0)).1.length = 10 ∧
    (decDigits 10).length = 2 ∧
    filename_digits 10 = 1 ∧
    (1, output_filename 1 1, ([] : List Nat)) ∈
      (extract_blocks (fun _ => none) (List.replicate 400 0) []).files ∧
    output_filename 1 1 ≠ output_filename 2 1 ∧
    (2, output_filename 1 2, ([] : List Nat)) ∈
      (extract_blocks (fun _ => none) (List.replicate 400 0) []).files ∧
    (10, output_filename 1 10, ([] : List Nat)) ∈
      (extract_blocks (fun _ => none) (List.replicate 400 0) []).files ∧
    lexLt (output_filename 1 10) (output_filename 1 2) = true := by
  have hidx : read_index_entries (List.replicate 400 0) =
      (List.replicate 10 (parseEntry40 (List.replicate 40 0)), false) := by
    have hsplit : List.replicate 400 (0 : Nat) =
        (List.replicate 10 (List.replicate 40 0)).flatten ++ [] := by
      decide
    rw [hsplit, read_index_entries,
      readEntriesLoop_spec _ _ (by decide) (by decide)]
    simp [List.map_replicate]
  have hfd : filename_digits 10 = 1 := by
    rw [filename_digits, if_neg (by omega)]
    exact Nat.clog_eq_one (by norm_num) (by norm_num)
  have hfiles : (extract_blocks (fun _ => none)
      (List.replicate 400 0) []).files =
      (extractLoop (fun _ => none) [] 1 1
        (List.replicate 10 (parseEntry40 (List.replicate 40 0)))).1 := by
    rw [extract_blocks, hidx]
    simp only [List.length_replicate, hfd]
  refine ⟨by rw [hidx]; rfl, by decide, hfd, ?_, by decide, ?_, ?_, by decide⟩
  · rw [hfiles]
    decide
  · rw [hfiles]
    decide
  · rw [hfiles]
    decide
